import Mathlib

/-!
Verification model of `gptbitcoin/oop/practicum/data_collection.py`.

The pipeline fetches date-indexed numeric tables (pandas DataFrames), derives
Bitcoin log returns with `np.log(price / price.shift(1))`, merges all tables
with `pd.concat(axis=1)` (outer join on the date index), and uploads the
result.  We model pandas/numpy float cells with an explicit IEEE-style value
type `FVal` (NaN, plus/minus infinity, or a finite real), DataFrames as
date-indexed column lists, and each method of the `DataCollection` class as a
Lean function over this model.
-/

open scoped Classical

/-- A numeric cell as numpy/pandas represent it: IEEE NaN, positive or
negative infinity, or a finite real value. -/
inductive FVal where
  | nan : FVal
  | posInf : FVal
  | negInf : FVal
  | val : ℝ → FVal

/-- Missing-value test, as `pandas.isna` / `Series.dropna` use it: only NaN is
missing; infinities are ordinary (non-missing) cells. -/
def FVal.isNA : FVal → Bool
  | .nan => true
  | _ => false

/-- IEEE-754 division on model cells, matching numpy: NaN propagates; for
finite `a / b` with `b = 0` the result is NaN when `a = 0` and a signed
infinity otherwise; division by an infinity gives zero. -/
noncomputable def fdiv : FVal → FVal → FVal
  | .nan, _ => .nan
  | _, .nan => .nan
  | .val a, .val b =>
      if b = 0 then (if a = 0 then .nan else if 0 < a then .posInf else .negInf)
      else .val (a / b)
  | .val _, .posInf => .val 0
  | .val _, .negInf => .val 0
  | .posInf, .val b => if 0 ≤ b then .posInf else .negInf
  | .negInf, .val b => if 0 ≤ b then .negInf else .posInf
  | .posInf, _ => .nan
  | .negInf, _ => .nan

/-- `np.log` on model cells: NaN for NaN and for negative arguments (numpy
emits a warning and returns NaN), negative infinity at zero, the real
logarithm on positive values, and positive infinity at positive infinity. -/
noncomputable def flog : FVal → FVal
  | .nan => .nan
  | .posInf => .posInf
  | .negInf => .nan
  | .val x => if 0 < x then .val (Real.log x) else if x = 0 then .negInf else .nan

/-- `Series.shift(1)`: every value moves down one position, the first entry
becomes NaN, and the last original value falls off. -/
def shift1 (vs : List FVal) : List FVal := .nan :: vs.dropLast

/-- The derived column `np.log(s / s.shift(1))` of
`DataCollection.bitcoin_log_returns` (line 97), element-wise over a value
list. -/
noncomputable def derivedVals (vs : List FVal) : List FVal :=
  List.zipWith (fun cur prev => flog (fdiv cur prev)) vs (shift1 vs)

/-- A pandas DataFrame in this pipeline: a date index (days, encoded as
naturals preserving order) and a list of named value columns aligned with the
index.  Column names may repeat, exactly as pandas allows. -/
structure Table where
  dates : List ℕ
  cols : List (String × List FVal)

/-- The column-name list of a table, in column order (`df.columns`). -/
def Table.colNames (t : Table) : List String := t.cols.map Prod.fst

/-- Column selection `df[name]`: the values of the first column carrying
`name`, or `[]` when no column does. -/
def colValues (t : Table) (name : String) : List FVal :=
  match t.cols.find? (fun c => c.1 == name) with
  | some c => c.2
  | none => []

/-- Value of an index-aligned column at date `d`: the entry at the position
of `d` in the index, or NaN when `d` is absent (pandas reindexing fills
missing labels with NaN). -/
def lookupVal (dates : List ℕ) (vals : List FVal) (d : ℕ) : FVal :=
  match dates, vals with
  | [], _ => .nan
  | _ :: _, [] => .nan
  | d₀ :: ds, v :: vs => if d = d₀ then v else lookupVal ds vs d

/-- The index of `pd.concat(tables, axis=1)` with the default outer join: the
sorted union (duplicates removed) of every input's dates. -/
def unionDates (ts : List Table) : List ℕ :=
  (((ts.map Table.dates).flatten).dedup).mergeSort (· ≤ ·)

/-- Reindexing one input's columns onto the union index: each column keeps
its name and takes, at every union date, its value there or NaN when its own
table lacks that date. -/
def reindexCols (ud : List ℕ) (t : Table) : List (String × List FVal) :=
  t.cols.map (fun c => (c.1, ud.map (lookupVal t.dates c.2)))

/-- `pd.concat([t₁, ..., tₙ], axis=1)` at line 112 of
`DataCollection.merge_df`: outer join on the date index; the result holds
every input column (reindexed onto the union of dates) in input order, with
no renaming and no collision check. -/
def concatTables (ts : List Table) : Table :=
  { dates := unionDates ts
    cols := (ts.map (reindexCols (unionDates ts))).flatten }

/-- Column assignment `df[name] = vals`: when a column named `name` exists,
every such column is replaced in place; otherwise the new column is appended
at the end. -/
def setCol (t : Table) (name : String) (vals : List FVal) : Table :=
  if name ∈ t.colNames then
    { t with cols := t.cols.map (fun c => if c.1 = name then (name, vals) else c) }
  else
    { t with cols := t.cols ++ [(name, vals)] }

/-- `DataCollection.bitcoin_log_returns(df, price_col)` (lines 84-104).
Returns the table with the `BTC_LogReturns` column assigned, the cleaned
series `df['BTC_LogReturns'].dropna()` as (date, value) pairs in index order,
and the list of emitted warnings; the printed warning of the missing-column
branch is modelled as the missing column's name. -/
noncomputable def bitcoin_log_returns (df : Table) (price_col : String) :
    Table × List (ℕ × FVal) × List String :=
  if price_col ∈ df.colNames then
    let derived := derivedVals (colValues df price_col)
    (setCol df "BTC_LogReturns" derived,
     (df.dates.zip derived).filter (fun p => !p.2.isNA),
     [])
  else
    (setCol df "BTC_LogReturns" (df.dates.map fun _ => FVal.nan),
     [],
     [price_col])

/-- The DataFrame built from the hash-rate JSON body in
`DataCollection.fetch_hash_rate` (lines 66-70): rows are the `{x, y}` pairs,
`x` (epoch seconds) becomes the date index, and the columns left in the frame
after `set_index('Date')` are `x`, `y` and the copy `HashRate` of `y`. -/
def hashRateRaw (values : List (ℕ × ℝ)) : Table :=
  { dates := values.map Prod.fst
    cols := [("x", values.map (fun p => FVal.val p.1)),
             ("y", values.map (fun p => FVal.val p.2)),
             ("HashRate", values.map (fun p => FVal.val p.2))] }

/-- Boolean row selection `df[pred(df.index)]`: keeps exactly the rows whose
date satisfies the predicate, in order, in the index and in every column. -/
def rowFilter (p : ℕ → Bool) (t : Table) : Table :=
  { dates := t.dates.filter p
    cols := t.cols.map (fun c =>
      (c.1, ((t.dates.zip c.2).filter (fun dv => p dv.1)).map Prod.snd)) }

/-- The range filtering of `fetch_hash_rate` (lines 71-81): when a start
bound is set, rows with `date >= start` are kept; when an end bound is set,
rows with `date < end` are kept; an absent bound filters nothing on that
side (the code only prints a notice). -/
def filterRange (start? stop? : Option ℕ) (t : Table) : Table :=
  let t₁ := match start? with
    | some s => rowFilter (fun d => s ≤ d) t
    | none => t
  match stop? with
  | some e => rowFilter (fun d => d < e) t₁
  | none => t₁

/-- `DataCollection.fetch_hash_rate` (lines 43-81) as a function of the HTTP
response: a non-200 status raises (modelled as `Except.error` carrying the
status code, line 62-64); on status 200 the JSON values become a date-indexed
table, range-filtered by the configured bounds. -/
def fetch_hash_rate (start? stop? : Option ℕ) (status : ℕ)
    (values : List (ℕ × ℝ)) : Except ℕ Table :=
  if status ≠ 200 then .error status
  else .ok (filterRange start? stop? (hashRateRaw values))

/-- The column structure yfinance may return in `fetch_asset_df`: either a
flat single-level set of field columns, or a two-level `(field, ticker)`
MultiIndex whose `Ticker` level the code drops (lines 35-37). -/
inductive RawCols where
  | flat (cols : List (String × List FVal))
  | tickered (cols : List ((String × String) × List FVal))

/-- `DataCollection.fetch_asset_df(asset_name)` (lines 24-41) as a function
of the downloaded frame: the `Ticker` column level, when present, is dropped,
and every column is renamed to `asset_name + "_" + field` (line 40). -/
def fetch_asset_df (asset : String) (dates : List ℕ) (rc : RawCols) : Table :=
  match rc with
  | .flat cs => { dates := dates, cols := cs.map (fun c => (asset ++ "_" ++ c.1, c.2)) }
  | .tickered cs => { dates := dates, cols := cs.map (fun c => (asset ++ "_" ++ c.1.1, c.2)) }

/-- Concrete table used by witnesses: one date, one column named `a`. -/
def tblA : Table := { dates := [0], cols := [("a", [FVal.nan])] }

/-- Concrete table used by witnesses: one date, one column named `b`. -/
def tblB : Table := { dates := [1], cols := [("b", [FVal.nan])] }

/-- Concrete two-row price table used by the C3 witness. -/
def dfC3 : Table := { dates := [0, 1], cols := [("C", [FVal.val 1, FVal.val 1])] }

/-- Concrete table that already carries a `BTC_LogReturns` column next to the
price column. -/
def dfC9 : Table :=
  { dates := [0, 1]
    cols := [("BTC-USD_Close", [FVal.val 1, FVal.val 1]),
             ("BTC_LogReturns", [FVal.val 5, FVal.val 5])] }

/-- Concrete table whose price column turns negative on the second date. -/
def dfC10 : Table :=
  { dates := [0, 1], cols := [("BTC-USD_Close", [FVal.val 1, FVal.val (-1)])] }

/-- Concrete four-row table whose price column hits zero mid-column. -/
def dfC10w : Table :=
  { dates := [0, 1, 2, 3]
    cols := [("P", [FVal.val 1, FVal.val 1, FVal.val 0, FVal.val 1])] }

lemma rowFilter_dates (p : ℕ → Bool) (t : Table) :
    (rowFilter p t).dates = t.dates.filter p := rfl

lemma mem_unionDates {ts : List Table} {d : ℕ} :
    d ∈ unionDates ts ↔ ∃ t ∈ ts, d ∈ t.dates := by
  simp [unionDates, List.mem_mergeSort, List.mem_dedup, List.mem_flatten]

lemma nodup_unionDates (ts : List Table) : (unionDates ts).Nodup :=
  ((List.mergeSort_perm _ _).nodup_iff).mpr (List.nodup_dedup _)

lemma lookupVal_of_not_mem (d : ℕ) :
    ∀ (dates : List ℕ) (vals : List FVal), d ∉ dates → lookupVal dates vals d = .nan := by
  intro dates
  induction dates with
  | nil => intro vals _; cases vals <;> rfl
  | cons d₀ ds ih =>
    intro vals hd
    cases vals with
    | nil => rfl
    | cons v vs =>
      have hne : d ≠ d₀ := fun h => hd (h ▸ List.mem_cons_self d₀ ds)
      have hds : d ∉ ds := fun h => hd (List.mem_cons_of_mem d₀ h)
      simp only [lookupVal, if_neg hne]
      exact ih vs hds

lemma lookupVal_map (f : ℕ → FVal) :
    ∀ (ud : List ℕ), ud.Nodup → ∀ d ∈ ud, lookupVal ud (ud.map f) d = f d := by
  intro ud
  induction ud with
  | nil => intro _ d hd; cases hd
  | cons d₀ ds ih =>
    intro hnd d hd
    by_cases h : d = d₀
    · subst h; simp [lookupVal]
    · have hds : d ∈ ds := by
        rcases List.mem_cons.mp hd with h₀ | h₀
        · exact absurd h₀ h
        · exact h₀
      simp only [List.map, lookupVal, if_neg h]
      exact ih (List.Nodup.of_cons hnd) d hds

/-- C5: a non-200 HTTP status makes `fetch_hash_rate` raise (model:
`Except.error`) carrying the status code; no table, empty or partial, is ever
returned on such a status. -/
theorem C5_non_success_status_raises (start? stop? : Option ℕ) (status : ℕ)
    (values : List (ℕ × ℝ)) (h : status ≠ 200) :
    fetch_hash_rate start? stop? status values = Except.error status ∧
    ∀ t : Table, fetch_hash_rate start? stop? status values ≠ Except.ok t := by
  refine ⟨?_, ?_⟩ <;> simp [fetch_hash_rate, h]

/-- Witness for C5 at status 404. -/
theorem C5_witness :
    (404 ≠ 200) ∧
    (fetch_hash_rate none none 404 [] = Except.error 404 ∧
     ∀ t : Table, fetch_hash_rate none none 404 [] ≠ Except.ok t) :=
  ⟨by decide, C5_non_success_status_raises none none 404 [] (by decide)⟩

/-- C6: with both bounds configured, every date in the fetched series
satisfies `start ≤ date < end` (rows before `start` and rows on or after
`end` are dropped, end exclusive), and an absent bound leaves that side
unfiltered. -/
theorem C6_range_filtering (s e : ℕ) (values : List (ℕ × ℝ)) (hse : s < e) :
    fetch_hash_rate (some s) (some e) 200 values
        = Except.ok (filterRange (some s) (some e) (hashRateRaw values)) ∧
    (filterRange (some s) (some e) (hashRateRaw values)).dates
        = (values.map Prod.fst).filter (fun d => decide (s ≤ d) && decide (d < e)) ∧
    (∀ d ∈ (filterRange (some s) (some e) (hashRateRaw values)).dates, s ≤ d ∧ d < e) ∧
    (filterRange none (some e) (hashRateRaw values)).dates
        = (values.map Prod.fst).filter (fun d => decide (d < e)) ∧
    (filterRange (some s) none (hashRateRaw values)).dates
        = (values.map Prod.fst).filter (fun d => decide (s ≤ d)) ∧
    filterRange none none (hashRateRaw values) = hashRateRaw values := by
  have hdates : (filterRange (some s) (some e) (hashRateRaw values)).dates
      = (values.map Prod.fst).filter (fun d => decide (s ≤ d) && decide (d < e)) := by
    show (((values.map Prod.fst).filter (fun d => decide (s ≤ d))).filter
        (fun d => decide (d < e)))
      = (values.map Prod.fst).filter (fun d => decide (s ≤ d) && decide (d < e))
    rw [List.filter_filter]
    exact List.filter_congr (fun d _ => by rw [Bool.and_comm])
  refine ⟨rfl, hdates, ?_, rfl, rfl, rfl⟩
  intro d hd
  rw [hdates] at hd
  have := List.of_mem_filter hd
  simp at this
  exact this

/-- Witness for C6 at bounds 0 and 10 on an empty response body. -/
theorem C6_witness :
    (0 < 10) ∧
    (fetch_hash_rate (some 0) (some 10) 200 []
        = Except.ok (filterRange (some 0) (some 10) (hashRateRaw [])) ∧
     (filterRange (some 0) (some 10) (hashRateRaw [])).dates
        = (([] : List (ℕ × ℝ)).map Prod.fst).filter (fun d => decide (0 ≤ d) && decide (d < 10)) ∧
     (∀ d ∈ (filterRange (some 0) (some 10) (hashRateRaw [])).dates, 0 ≤ d ∧ d < 10) ∧
     (filterRange none (some 10) (hashRateRaw [])).dates
        = (([] : List (ℕ × ℝ)).map Prod.fst).filter (fun d => decide (d < 10)) ∧
     (filterRange (some 0) none (hashRateRaw [])).dates
        = (([] : List (ℕ × ℝ)).map Prod.fst).filter (fun d => decide (0 ≤ d)) ∧
     filterRange none none (hashRateRaw []) = hashRateRaw []) :=
  ⟨by decide, C6_range_filtering 0 10 [] (by decide)⟩

lemma reindexCols_names (ud : List ℕ) (t : Table) :
    (reindexCols ud t).map Prod.fst = t.colNames := by
  simp [reindexCols, Table.colNames]

/-- C1 counterexample: merging two tables that share the column name `c`
returns normally and produces a table in which the name `c` occurs twice
(one column per input), so no `ColumnCollision` error is ever raised and the
no-duplicate-name guarantee fails. -/
theorem C1_counterexample :
    ("c" ∈ (Table.mk [0] [("c", [FVal.nan])]).colNames ∧
     "c" ∈ (Table.mk [1] [("c", [FVal.nan])]).colNames) ∧
    (concatTables [Table.mk [0] [("c", [FVal.nan])],
                   Table.mk [1] [("c", [FVal.nan])]]).colNames = ["c", "c"] ∧
    ¬ (concatTables [Table.mk [0] [("c", [FVal.nan])],
                     Table.mk [1] [("c", [FVal.nan])]]).colNames.Nodup := by
  refine ⟨⟨?_, ?_⟩, ?_, ?_⟩ <;> decide

/-- C1 amended: the merge performs no collision check at all; it never
raises, and its column-name list is exactly the concatenation of the inputs'
column-name lists, so a name shared by two inputs appears once per input
(duplicated), with neither side overwritten. -/
theorem C1_merge_keeps_duplicates (ts : List Table) :
    (concatTables ts).colNames = (ts.map Table.colNames).flatten := by
  show ((ts.map (reindexCols (unionDates ts))).flatten).map Prod.fst
      = (ts.map Table.colNames).flatten
  rw [List.map_flatten, List.map_map]
  congr 1
  exact List.map_congr_left (fun t _ => reindexCols_names (unionDates ts) t)

/-- C2: every date present in any input table appears in the merged table's
index, and any column whose source table lacks that date carries the missing
marker NaN there (outer/union join), rather than zero or an error. -/
theorem C2_outer_join_completeness (ts : List Table) (t : Table) (ht : t ∈ ts)
    (d : ℕ) (hd : d ∈ t.dates) :
    d ∈ (concatTables ts).dates ∧
    ∀ t' ∈ ts, d ∉ t'.dates → ∀ c ∈ t'.cols,
      ((c.1, (unionDates ts).map (lookupVal t'.dates c.2)) ∈ (concatTables ts).cols ∧
       lookupVal (concatTables ts).dates ((unionDates ts).map (lookupVal t'.dates c.2)) d
         = FVal.nan) := by
  have hdu : d ∈ unionDates ts := mem_unionDates.mpr ⟨t, ht, hd⟩
  refine ⟨hdu, ?_⟩
  intro t' ht' hd' c hc
  constructor
  · show _ ∈ ((ts.map (reindexCols (unionDates ts))).flatten)
    rw [List.mem_flatten]
    exact ⟨reindexCols (unionDates ts) t', List.mem_map_of_mem _ ht',
      List.mem_map_of_mem _ hc⟩
  · show lookupVal (unionDates ts) ((unionDates ts).map (lookupVal t'.dates c.2)) d = FVal.nan
    rw [lookupVal_map _ _ (nodup_unionDates ts) d hdu]
    exact lookupVal_of_not_mem d t'.dates c.2 hd'

/-- Witness for C2 on two one-row tables with distinct dates. -/
theorem C2_witness :
    (tblA ∈ [tblA, tblB] ∧ (0 : ℕ) ∈ tblA.dates) ∧
    ((0 : ℕ) ∈ (concatTables [tblA, tblB]).dates ∧
     ∀ t' ∈ [tblA, tblB], (0 : ℕ) ∉ t'.dates → ∀ c ∈ t'.cols,
       ((c.1, (unionDates [tblA, tblB]).map (lookupVal t'.dates c.2))
           ∈ (concatTables [tblA, tblB]).cols ∧
        lookupVal (concatTables [tblA, tblB]).dates
          ((unionDates [tblA, tblB]).map (lookupVal t'.dates c.2)) 0 = FVal.nan)) :=
  ⟨⟨List.mem_cons_self _ _, by decide⟩,
   C2_outer_join_completeness [tblA, tblB] tblA (List.mem_cons_self _ _) 0 (by decide)⟩

lemma unionDates_perm {ts ts' : List Table} (h : List.Perm ts ts') :
    unionDates ts = unionDates ts' := by
  refine List.eq_of_perm_of_sorted ?_ (List.sorted_mergeSort' _) (List.sorted_mergeSort' _)
  exact ((List.mergeSort_perm _ _).trans
    (((h.map Table.dates).flatten).dedup)).trans (List.mergeSort_perm _ _).symm

/-- C7: merging is order-independent up to row/column ordering: a permutation
of the input tables leaves the merged date index unchanged and permutes the
merged columns (same names, same per-date values) accordingly. -/
theorem C7_merge_order_independent (ts ts' : List Table)
    (hperm : List.Perm ts ts')
    (hdisj : List.Pairwise (fun a b => ∀ n ∈ a.colNames, n ∉ b.colNames) ts) :
    (concatTables ts).dates = (concatTables ts').dates ∧
    List.Perm (concatTables ts).cols (concatTables ts').cols := by
  have hud := unionDates_perm hperm
  refine ⟨hud, ?_⟩
  show List.Perm ((ts.map (reindexCols (unionDates ts))).flatten)
      ((ts'.map (reindexCols (unionDates ts'))).flatten)
  rw [← hud]
  exact (hperm.map _).flatten

/-- Witness for C7: swapping two disjointly-named tables. -/
theorem C7_witness :
    (List.Perm [tblA, tblB] [tblB, tblA] ∧
     List.Pairwise (fun a b => ∀ n ∈ a.colNames, n ∉ b.colNames) [tblA, tblB]) ∧
    ((concatTables [tblA, tblB]).dates = (concatTables [tblB, tblA]).dates ∧
     List.Perm (concatTables [tblA, tblB]).cols (concatTables [tblB, tblA]).cols) :=
  ⟨⟨List.Perm.swap tblB tblA [], by decide⟩,
   C7_merge_order_independent [tblA, tblB] [tblB, tblA]
     (List.Perm.swap tblB tblA []) (by decide)⟩

lemma fdiv_nan (v : FVal) : fdiv v .nan = .nan := by cases v <;> rfl

lemma zipWith_take_eq (f : FVal → FVal → FVal) :
    ∀ (as bs : List FVal) (n : ℕ), as.length ≤ n →
      List.zipWith f as (bs.take n) = List.zipWith f as bs := by
  intro as
  induction as with
  | nil => intro bs n _; simp
  | cons a as ih =>
    intro bs n h
    cases bs with
    | nil => simp
    | cons b bs =>
      cases n with
      | zero => simp at h
      | succ n =>
        simp only [List.take, List.zipWith]
        rw [ih bs n (by simpa using h)]

lemma derivedVals_cons (v : FVal) (vs : List FVal) :
    derivedVals (v :: vs)
      = .nan :: List.zipWith (fun cur prev => flog (fdiv cur prev)) vs (v :: vs) := by
  show List.zipWith _ (v :: vs) (.nan :: (v :: vs).dropLast) = _
  simp only [List.zipWith, fdiv_nan, flog]
  rw [List.dropLast_eq_take]
  rw [show (v :: vs).length - 1 = vs.length from by simp]
  rw [zipWith_take_eq _ vs (v :: vs) vs.length le_rfl]

lemma flog_fdiv_pos {a b : ℝ} (ha : 0 < a) (hb : 0 < b) :
    flog (fdiv (.val a) (.val b)) = .val (Real.log (a / b)) := by
  simp only [fdiv, flog, if_neg hb.ne', if_pos (div_pos ha hb)]

lemma derived_pos_zip (q : ℝ) (qs : List ℝ) (hq : 0 < q) (hqs : ∀ x ∈ qs, 0 < x) :
    List.zipWith (fun cur prev => flog (fdiv cur prev))
        (qs.map FVal.val) ((q :: qs).map FVal.val)
      = List.zipWith (fun cur prev => FVal.val (Real.log (cur / prev))) qs (q :: qs) := by
  induction qs generalizing q with
  | nil => rfl
  | cons r rs ih =>
    simp only [List.map, List.zipWith]
    rw [flog_fdiv_pos (hqs r (List.mem_cons_self r rs)) hq]
    congr 1
    exact ih r (hqs r (List.mem_cons_self r rs)) (fun x hx => hqs x (List.mem_cons_of_mem r hx))

lemma find?_replaced :
    ∀ (cols : List (String × List FVal)) (name : String) (vs : List FVal),
      name ∈ cols.map Prod.fst →
      (cols.map (fun c => if c.1 = name then (name, vs) else c)).find?
          (fun c => c.1 == name) = some (name, vs) := by
  intro cols
  induction cols with
  | nil => intro name vs h; cases h
  | cons c cs ih =>
    intro name vs h
    by_cases hc : c.1 = name
    · simp only [List.map, if_pos hc]
      exact List.find?_cons_of_pos _ (by simp)
    · simp only [List.map, if_neg hc]
      rw [List.find?_cons_of_neg _ (by simpa using hc)]
      refine ih name vs ?_
      rw [List.map_cons] at h
      rcases List.mem_cons.mp h with h₀ | h₀
      · exact absurd h₀.symm hc
      · exact h₀

lemma find?_appended :
    ∀ (cols : List (String × List FVal)) (name : String) (vs : List FVal),
      name ∉ cols.map Prod.fst →
      (cols ++ [(name, vs)]).find? (fun c => c.1 == name) = some (name, vs) := by
  intro cols
  induction cols with
  | nil => intro name vs _; exact List.find?_cons_of_pos _ (by simp)
  | cons c cs ih =>
    intro name vs h
    rw [List.map_cons] at h
    have h₁ : name ≠ c.1 := fun he => h (he ▸ List.mem_cons_self _ _)
    have h₂ : name ∉ cs.map Prod.fst := fun he => h (List.mem_cons_of_mem _ he)
    rw [List.cons_append, List.find?_cons_of_neg _ (by simpa using fun he => h₁ he.symm)]
    exact ih name vs h₂

lemma colValues_setCol (t : Table) (name : String) (vs : List FVal) :
    colValues (setCol t name vs) name = vs := by
  unfold setCol
  by_cases h : name ∈ t.colNames
  · rw [if_pos h]
    unfold colValues
    rw [find?_replaced t.cols name vs h]
  · rw [if_neg h]
    unfold colValues
    rw [find?_appended t.cols name vs h]

lemma map_snd_filter_zip (p : FVal → Bool) :
    ∀ (ds : List ℕ) (vs : List FVal), ds.length = vs.length →
      (((ds.zip vs).filter (fun x => p x.2)).map Prod.snd) = vs.filter p := by
  intro ds
  induction ds with
  | nil =>
    intro vs h
    cases vs with
    | nil => rfl
    | cons v vs => simp at h
  | cons d ds ih =>
    intro vs h
    cases vs with
    | nil => simp at h
    | cons v vs =>
      have h₁ : ds.length = vs.length := by simpa using h
      show ((((d, v) :: ds.zip vs).filter (fun x => p x.2)).map Prod.snd) = (v :: vs).filter p
      cases hp : p v <;> simp [List.filter_cons, hp, ih vs h₁]

lemma get?_log_column (p : ℝ) :
    ∀ (rest : List ℝ) (t : ℕ), t < rest.length →
      (FVal.nan ::
        List.zipWith (fun cur prev => FVal.val (Real.log (cur / prev))) rest (p :: rest)).get?
          (t + 1)
        = some (FVal.val (Real.log ((p :: rest).getD (t + 1) 0 / (p :: rest).getD t 0))) := by
  intro rest t
  induction t generalizing p rest with
  | zero =>
    intro ht
    cases rest with
    | nil => simp at ht
    | cons r rs => rfl
  | succ t ih =>
    intro ht
    cases rest with
    | nil => simp at ht
    | cons r rs =>
      have ht' : t < rs.length := by simpa using ht
      rw [List.get?_cons_succ]
      rw [show List.zipWith (fun cur prev => FVal.val (Real.log (cur / prev)))
            (r :: rs) (p :: r :: rs)
          = FVal.val (Real.log (r / p)) ::
            List.zipWith (fun cur prev => FVal.val (Real.log (cur / prev))) rs (r :: rs)
          from rfl]
      rw [List.get?_cons_succ]
      have h₂ := ih r rs ht'
      rw [List.get?_cons_succ] at h₂
      rw [h₂]
      simp [List.getD_cons_succ]

/-- C3: on a table containing the price column with positive values
`p :: rest`, the derived `BTC_LogReturns` column starts with NaN and its
entry at each later position `t` is `ln(price[t] / price[t-1])`, and the
returned clean series is the derived column with all missing markers
removed, in index order. -/
theorem C3_log_return_derivation (df : Table) (price_col : String) (p : ℝ)
    (rest : List ℝ)
    (hmem : price_col ∈ df.colNames)
    (hcol : colValues df price_col = (p :: rest).map FVal.val)
    (hp : 0 < p) (hrest : ∀ x ∈ rest, 0 < x)
    (hlen : df.dates.length = (p :: rest).length) :
    colValues (bitcoin_log_returns df price_col).1 "BTC_LogReturns"
        = FVal.nan ::
          List.zipWith (fun cur prev => FVal.val (Real.log (cur / prev))) rest (p :: rest) ∧
    (∀ t, t + 1 < (p :: rest).length →
      (colValues (bitcoin_log_returns df price_col).1 "BTC_LogReturns").get? (t + 1)
        = some (FVal.val
            (Real.log ((p :: rest).getD (t + 1) 0 / (p :: rest).getD t 0)))) ∧
    ((bitcoin_log_returns df price_col).2.1).map Prod.snd
        = (colValues (bitcoin_log_returns df price_col).1 "BTC_LogReturns").filter
            (fun v => !v.isNA) := by
  have hbr : bitcoin_log_returns df price_col
      = (setCol df "BTC_LogReturns" (derivedVals (colValues df price_col)),
         (df.dates.zip (derivedVals (colValues df price_col))).filter
           (fun q => !q.2.isNA),
         ([] : List String)) := by
    simp only [bitcoin_log_returns, if_pos hmem]
  have hder : derivedVals (colValues df price_col)
      = FVal.nan ::
        List.zipWith (fun cur prev => FVal.val (Real.log (cur / prev))) rest (p :: rest) := by
    rw [hcol, List.map_cons, derivedVals_cons, ← List.map_cons,
      derived_pos_zip p rest hp hrest]
  have hcv : colValues (bitcoin_log_returns df price_col).1 "BTC_LogReturns"
      = derivedVals (colValues df price_col) := by
    rw [hbr]
    exact colValues_setCol df "BTC_LogReturns" _
  have hlen₁ : df.dates.length = rest.length + 1 := by simpa using hlen
  have hlen₂ : df.dates.length = (derivedVals (colValues df price_col)).length := by
    rw [hder]
    simp only [List.length_cons, List.length_zipWith, List.length_cons]
    rw [min_eq_left (Nat.le_succ _)]
    exact hlen₁
  refine ⟨by rw [hcv, hder], ?_, ?_⟩
  · intro t ht
    rw [hcv, hder]
    exact get?_log_column p rest t (by simpa using ht)
  · rw [hbr, colValues_setCol]
    show ((df.dates.zip (derivedVals (colValues df price_col))).filter
        (fun q => !q.2.isNA)).map Prod.snd
      = (derivedVals (colValues df price_col)).filter (fun v => !v.isNA)
    exact map_snd_filter_zip (fun v => !v.isNA) df.dates _ hlen₂

/-- Witness for C3 on a two-row table with prices `[1, 1]`. -/
theorem C3_witness :
    ("C" ∈ dfC3.colNames ∧
     colValues dfC3 "C" = (((1 : ℝ) :: [1]).map FVal.val) ∧
     (0 : ℝ) < 1 ∧ (∀ x ∈ ([1] : List ℝ), 0 < x) ∧
     dfC3.dates.length = (((1 : ℝ) :: [1])).length) ∧
    (colValues (bitcoin_log_returns dfC3 "C").1 "BTC_LogReturns"
        = FVal.nan ::
          List.zipWith (fun cur prev => FVal.val (Real.log (cur / prev)))
            ([1] : List ℝ) ((1 : ℝ) :: [1]) ∧
     (∀ t, t + 1 < (((1 : ℝ) :: [1])).length →
       (colValues (bitcoin_log_returns dfC3 "C").1 "BTC_LogReturns").get? (t + 1)
         = some (FVal.val
             (Real.log ((((1 : ℝ) :: [1])).getD (t + 1) 0
               / (((1 : ℝ) :: [1])).getD t 0)))) ∧
     ((bitcoin_log_returns dfC3 "C").2.1).map Prod.snd
        = (colValues (bitcoin_log_returns dfC3 "C").1 "BTC_LogReturns").filter
            (fun v => !v.isNA)) :=
  ⟨⟨by decide, rfl, one_pos, by simp, rfl⟩,
   C3_log_return_derivation dfC3 "C" 1 [1] (by decide) rfl one_pos (by simp) rfl⟩

/-- C4: deriving log returns on a table lacking the requested price column
does not fail: the derived column is entirely NaN (one marker per date), the
clean series is empty, and a warning naming the missing column is emitted. -/
theorem C4_missing_column (df : Table) (price_col : String)
    (h : price_col ∉ df.colNames) :
    colValues (bitcoin_log_returns df price_col).1 "BTC_LogReturns"
        = df.dates.map (fun _ => FVal.nan) ∧
    (∀ v ∈ colValues (bitcoin_log_returns df price_col).1 "BTC_LogReturns",
      v = FVal.nan) ∧
    (colValues (bitcoin_log_returns df price_col).1 "BTC_LogReturns").length
        = df.dates.length ∧
    (bitcoin_log_returns df price_col).2.1 = [] ∧
    (bitcoin_log_returns df price_col).2.2 = [price_col] := by
  have hbr : bitcoin_log_returns df price_col
      = (setCol df "BTC_LogReturns" (df.dates.map fun _ => FVal.nan),
         ([] : List (ℕ × FVal)), [price_col]) := by
    simp only [bitcoin_log_returns, if_neg h]
  have hcv : colValues (bitcoin_log_returns df price_col).1 "BTC_LogReturns"
      = df.dates.map (fun _ => FVal.nan) := by
    rw [hbr]
    exact colValues_setCol df _ _
  refine ⟨hcv, ?_, ?_, by rw [hbr], by rw [hbr]⟩
  · intro v hv
    rw [hcv] at hv
    rcases List.mem_map.mp hv with ⟨d, _, hd⟩
    exact hd.symm
  · rw [hcv]
    simp

/-- Witness for C4 on a table without the requested column. -/
theorem C4_witness :
    ("missing" ∉ tblA.colNames) ∧
    (colValues (bitcoin_log_returns tblA "missing").1 "BTC_LogReturns"
        = tblA.dates.map (fun _ => FVal.nan) ∧
     (∀ v ∈ colValues (bitcoin_log_returns tblA "missing").1 "BTC_LogReturns",
       v = FVal.nan) ∧
     (colValues (bitcoin_log_returns tblA "missing").1 "BTC_LogReturns").length
        = tblA.dates.length ∧
     (bitcoin_log_returns tblA "missing").2.1 = [] ∧
     (bitcoin_log_returns tblA "missing").2.2 = ["missing"]) :=
  ⟨by decide, C4_missing_column tblA "missing" (by decide)⟩

lemma append_cons_inj (c : Char) :
    ∀ (l₁ l₂ r₁ r₂ : List Char), c ∉ l₁ → c ∉ l₂ →
      l₁ ++ c :: r₁ = l₂ ++ c :: r₂ → l₁ = l₂ := by
  intro l₁
  induction l₁ with
  | nil =>
    intro l₂ r₁ r₂ _ h₂ h
    cases l₂ with
    | nil => rfl
    | cons b bs =>
      simp only [List.nil_append, List.cons_append, List.cons.injEq] at h
      have hb : c ∈ b :: bs := by rw [h.1]; exact List.mem_cons_self b bs
      exact absurd hb h₂
  | cons a as ih =>
    intro l₂ r₁ r₂ h₁ h₂ h
    cases l₂ with
    | nil =>
      simp only [List.cons_append, List.nil_append, List.cons.injEq] at h
      have ha : c ∈ a :: as := by rw [← h.1]; exact List.mem_cons_self _ _
      exact absurd ha h₁
    | cons b bs =>
      simp only [List.cons_append, List.cons.injEq] at h
      have hrec := ih bs r₁ r₂ (fun hm => h₁ (List.mem_cons_of_mem a hm))
        (fun hm => h₂ (List.mem_cons_of_mem b hm)) h.2
      rw [h.1, hrec]

lemma underscore_name_inj (a₁ a₂ f₁ f₂ : String)
    (h₁ : ('_' : Char) ∉ a₁.data) (h₂ : ('_' : Char) ∉ a₂.data)
    (h : a₁ ++ "_" ++ f₁ = a₂ ++ "_" ++ f₂) : a₁ = a₂ := by
  have hd := congrArg String.data h
  simp only [String.data_append, List.append_assoc, List.singleton_append] at hd
  have hdata := append_cons_inj '_' a₁.data a₂.data f₁.data f₂.data h₁ h₂ hd
  cases a₁ with
  | mk d₁ =>
    cases a₂ with
    | mk d₂ => exact congrArg String.mk hdata

/-- C8 counterexample: the claimed disjointness of column names across
distinct asset identifiers fails when an asset identifier contains an
underscore — asset `A` with provider field `B_C` and asset `A_B` with
provider field `C` both produce the column name `A_B_C`. -/
theorem C8_counterexample :
    ("A" : String) ≠ "A_B" ∧
    "A_B_C" ∈ (fetch_asset_df "A" [0] (RawCols.flat [("B_C", [FVal.nan])])).colNames ∧
    "A_B_C" ∈ (fetch_asset_df "A_B" [0] (RawCols.flat [("C", [FVal.nan])])).colNames := by
  refine ⟨?_, ?_, ?_⟩ <;> decide

/-- C8 amended: every fetched column is renamed to `asset + "_" + field`
(with the instrument-identifying `Ticker` level collapsed first when the
provider returns a multi-level structure), and the renaming guarantees
pairwise-disjoint column names for distinct asset identifiers that contain
no underscore (as the repository's `BTC-USD` and `SPY` do). -/
theorem C8_rename_disjoint :
    (∀ (asset : String) (dates : List ℕ) (cs : List (String × List FVal)),
      (fetch_asset_df asset dates (RawCols.flat cs)).colNames
        = cs.map (fun c => asset ++ "_" ++ c.1)) ∧
    (∀ (asset : String) (dates : List ℕ) (cs : List ((String × String) × List FVal)),
      (fetch_asset_df asset dates (RawCols.tickered cs)).colNames
        = cs.map (fun c => asset ++ "_" ++ c.1.1)) ∧
    (∀ (a₁ a₂ : String) (d₁ d₂ : List ℕ) (rc₁ rc₂ : RawCols),
      a₁ ≠ a₂ → ('_' : Char) ∉ a₁.data → ('_' : Char) ∉ a₂.data →
      ∀ n ∈ (fetch_asset_df a₁ d₁ rc₁).colNames,
        n ∉ (fetch_asset_df a₂ d₂ rc₂).colNames) := by
  refine ⟨?_, ?_, ?_⟩
  · intro asset dates cs
    simp [fetch_asset_df, Table.colNames]
  · intro asset dates cs
    simp [fetch_asset_df, Table.colNames]
  · intro a₁ a₂ d₁ d₂ rc₁ rc₂ hne hu₁ hu₂ n hn₁ hn₂
    have hf₁ : ∃ f₁ : String, n = a₁ ++ "_" ++ f₁ := by
      cases rc₁ with
      | flat cs =>
        simp only [fetch_asset_df, Table.colNames, List.map_map, List.mem_map] at hn₁
        rcases hn₁ with ⟨c, _, hc⟩
        exact ⟨c.1, hc.symm⟩
      | tickered cs =>
        simp only [fetch_asset_df, Table.colNames, List.map_map, List.mem_map] at hn₁
        rcases hn₁ with ⟨c, _, hc⟩
        exact ⟨c.1.1, hc.symm⟩
    have hf₂ : ∃ f₂ : String, n = a₂ ++ "_" ++ f₂ := by
      cases rc₂ with
      | flat cs =>
        simp only [fetch_asset_df, Table.colNames, List.map_map, List.mem_map] at hn₂
        rcases hn₂ with ⟨c, _, hc⟩
        exact ⟨c.1, hc.symm⟩
      | tickered cs =>
        simp only [fetch_asset_df, Table.colNames, List.map_map, List.mem_map] at hn₂
        rcases hn₂ with ⟨c, _, hc⟩
        exact ⟨c.1.1, hc.symm⟩
    rcases hf₁ with ⟨f₁, he₁⟩
    rcases hf₂ with ⟨f₂, he₂⟩
    exact hne (underscore_name_inj a₁ a₂ f₁ f₂ hu₁ hu₂ (he₁ ▸ he₂))

/-- Witness for C8 on the repository's two asset identifiers. -/
theorem C8_witness :
    (("BTC-USD" : String) ≠ "SPY" ∧ ('_' : Char) ∉ ("BTC-USD" : String).data ∧
     ('_' : Char) ∉ ("SPY" : String).data) ∧
    (∀ n ∈ (fetch_asset_df "BTC-USD" [0] (RawCols.flat [("Close", [FVal.nan])])).colNames,
      n ∉ (fetch_asset_df "SPY" [0] (RawCols.flat [("Close", [FVal.nan])])).colNames) :=
  ⟨⟨by decide, by decide, by decide⟩,
   C8_rename_disjoint.2.2 "BTC-USD" "SPY" [0] [0]
     (RawCols.flat [("Close", [FVal.nan])]) (RawCols.flat [("Close", [FVal.nan])])
     (by decide) (by decide) (by decide)⟩

lemma flog_fdiv_neg {a b : ℝ} (ha : a < 0) (hb : 0 < b) :
    flog (fdiv (.val a) (.val b)) = .nan := by
  simp only [fdiv, if_neg hb.ne']
  simp only [flog]
  rw [if_neg (not_lt.mpr (le_of_lt (div_neg_of_neg_of_pos ha hb))),
    if_neg (div_neg_of_neg_of_pos ha hb).ne]

lemma flog_fdiv_zero {b : ℝ} (hb : 0 < b) :
    flog (fdiv (.val 0) (.val b)) = .negInf := by
  simp only [fdiv, if_neg hb.ne']
  rw [zero_div]
  simp only [flog]
  rw [if_neg (lt_irrefl (0 : ℝ))]
  simp

lemma blr_two (d₁ d₂ : ℕ) (v₁ v₂ : FVal) :
    bitcoin_log_returns (Table.mk [d₁, d₂] [("BTC-USD_Close", [v₁, v₂])]) "BTC-USD_Close"
      = (setCol (Table.mk [d₁, d₂] [("BTC-USD_Close", [v₁, v₂])]) "BTC_LogReturns"
           [FVal.nan, flog (fdiv v₂ v₁)],
         [(d₁, FVal.nan), (d₂, flog (fdiv v₂ v₁))].filter (fun q => !q.2.isNA),
         ([] : List String)) := by
  have hmem : "BTC-USD_Close"
      ∈ (Table.mk [d₁, d₂] [("BTC-USD_Close", [v₁, v₂])]).colNames :=
    List.mem_singleton.mpr rfl
  have hd : derivedVals (colValues (Table.mk [d₁, d₂] [("BTC-USD_Close", [v₁, v₂])])
      "BTC-USD_Close") = [FVal.nan, flog (fdiv v₂ v₁)] := by
    show derivedVals (v₁ :: [v₂]) = _
    rw [derivedVals_cons]
    rfl
  simp only [bitcoin_log_returns, if_pos hmem]
  rw [hd]
  rfl

/-- C9 counterexample: on a table that already carries a `BTC_LogReturns`
column, deriving log returns adds no column (the count is unchanged) and
overwrites the pre-existing `BTC_LogReturns` values, so the returned table is
not the input plus exactly one additional column with pre-existing columns
unchanged. -/
theorem C9_counterexample :
    "BTC-USD_Close" ∈ dfC9.colNames ∧
    (bitcoin_log_returns dfC9 "BTC-USD_Close").1.cols.length = dfC9.cols.length ∧
    (colValues (bitcoin_log_returns dfC9 "BTC-USD_Close").1 "BTC_LogReturns").head?
      = some FVal.nan ∧
    (colValues dfC9 "BTC_LogReturns").head? = some (FVal.val 5) ∧
    FVal.nan ≠ FVal.val 5 := by
  have h₁ : "BTC-USD_Close" ∈ dfC9.colNames := by decide
  have h₂ : "BTC_LogReturns" ∈ dfC9.colNames := by decide
  have hbr : (bitcoin_log_returns dfC9 "BTC-USD_Close").1
      = setCol dfC9 "BTC_LogReturns" (derivedVals (colValues dfC9 "BTC-USD_Close")) := by
    simp only [bitcoin_log_returns, if_pos h₁]
  refine ⟨h₁, ?_, ?_, rfl, by simp⟩
  · rw [hbr]
    unfold setCol
    rw [if_pos h₂]
    simp
  · rw [hbr, colValues_setCol]
    rw [show colValues dfC9 "BTC-USD_Close" = FVal.val 1 :: [FVal.val 1] from rfl,
      derivedVals_cons]
    rfl

/-- C9 amended: provided the table does not already contain a column named
`BTC_LogReturns`, derivation leaves the date index and every pre-existing
column unchanged and appends exactly one new column, named `BTC_LogReturns`
regardless of which price column was requested; when a `BTC_LogReturns`
column already exists it is overwritten in place instead. -/
theorem C9_frame_amended (df : Table) (price_col : String)
    (hno : "BTC_LogReturns" ∉ df.colNames) (hmem : price_col ∈ df.colNames) :
    (bitcoin_log_returns df price_col).1.dates = df.dates ∧
    (bitcoin_log_returns df price_col).1.cols
      = df.cols ++ [("BTC_LogReturns", derivedVals (colValues df price_col))] := by
  have hbr : (bitcoin_log_returns df price_col).1
      = setCol df "BTC_LogReturns" (derivedVals (colValues df price_col)) := by
    simp only [bitcoin_log_returns, if_pos hmem]
  rw [hbr]
  unfold setCol
  rw [if_neg hno]
  exact ⟨rfl, rfl⟩

/-- Witness for C9 on a table without a prior `BTC_LogReturns` column. -/
theorem C9_witness :
    ("BTC_LogReturns" ∉ dfC3.colNames ∧ "C" ∈ dfC3.colNames) ∧
    ((bitcoin_log_returns dfC3 "C").1.dates = dfC3.dates ∧
     (bitcoin_log_returns dfC3 "C").1.cols
       = dfC3.cols ++ [("BTC_LogReturns", derivedVals (colValues dfC3 "C"))]) :=
  ⟨⟨by decide, by decide⟩, C9_frame_amended dfC3 "C" (by decide) (by decide)⟩

/-- C10 counterexample: with prices `[1, -1]` (positive prior, negative
current) the derived value at the second position is NaN — not negative
infinity nor any other non-NaN non-finite value — and it is removed by
`dropna`, so the clean series is empty rather than retaining it. -/
theorem C10_counterexample :
    colValues dfC10 "BTC-USD_Close" = [FVal.val 1, FVal.val (-1)] ∧
    (0 : ℝ) < 1 ∧ (-1 : ℝ) < 0 ∧
    colValues (bitcoin_log_returns dfC10 "BTC-USD_Close").1 "BTC_LogReturns"
      = [FVal.nan, FVal.nan] ∧
    (bitcoin_log_returns dfC10 "BTC-USD_Close").2.1 = [] := by
  have hneg : flog (fdiv (FVal.val (-1)) (FVal.val 1)) = FVal.nan :=
    flog_fdiv_neg (by norm_num) one_pos
  have hb := blr_two 0 1 (FVal.val 1) (FVal.val (-1))
  refine ⟨rfl, by norm_num, by norm_num, ?_, ?_⟩
  · show colValues (bitcoin_log_returns (Table.mk [0, 1]
        [("BTC-USD_Close", [FVal.val 1, FVal.val (-1)])]) "BTC-USD_Close").1
        "BTC_LogReturns" = [FVal.nan, FVal.nan]
    rw [hb, hneg]
    exact colValues_setCol
      (Table.mk [0, 1] [("BTC-USD_Close", [FVal.val 1, FVal.val (-1)])])
      "BTC_LogReturns" [FVal.nan, FVal.nan]
  · show (bitcoin_log_returns (Table.mk [0, 1]
        [("BTC-USD_Close", [FVal.val 1, FVal.val (-1)])]) "BTC-USD_Close").2.1 = []
    rw [hb, hneg]
    rfl

lemma zipWith_shift_get? (f : FVal → FVal → FVal) (v : FVal) :
    ∀ (rest : List FVal) (t : ℕ), t < rest.length →
      (List.zipWith f rest (v :: rest)).get? t
        = some (f ((v :: rest).getD (t + 1) FVal.nan) ((v :: rest).getD t FVal.nan)) := by
  intro rest t
  induction t generalizing v rest with
  | zero =>
    intro ht
    cases rest with
    | nil => simp at ht
    | cons r rs => rfl
  | succ t ih =>
    intro ht
    cases rest with
    | nil => simp at ht
    | cons r rs =>
      have ht' : t < rs.length := by simpa using ht
      show (f r v :: List.zipWith f rs (r :: rs)).get? (t + 1) = _
      rw [List.get?_cons_succ, ih r rs ht']
      simp [List.getD_cons_succ]

lemma derivedVals_get?_succ (vs : List FVal) (t : ℕ) (ht : t + 1 < vs.length) :
    (derivedVals vs).get? (t + 1)
      = some (flog (fdiv (vs.getD (t + 1) FVal.nan) (vs.getD t FVal.nan))) := by
  cases vs with
  | nil => simp at ht
  | cons v rest =>
    rw [derivedVals_cons, List.get?_cons_succ]
    exact zipWith_shift_get? _ v rest t (by simpa using ht)

lemma getD_map_val (ps : List ℝ) (i : ℕ) (hi : i < ps.length) :
    (ps.map FVal.val).getD i FVal.nan = FVal.val (ps.getD i 0) := by
  rw [List.getD_eq_getElem (ps.map FVal.val) FVal.nan (by simpa using hi),
    List.getD_eq_getElem ps 0 hi]
  simp

/-- C10 amended: at any position of any price column, a zero price with a
positive prior yields negative infinity, which `dropna` retains in the clean
series (the (date, negative-infinity) pair survives), while a negative price
with a positive prior yields NaN, and NaN entries never survive into the
clean series. -/
theorem C10_nonpositive_price (df : Table) (price_col : String) (ps : List ℝ)
    (t : ℕ)
    (hmem : price_col ∈ df.colNames)
    (hcol : colValues df price_col = ps.map FVal.val)
    (hlen : df.dates.length = ps.length)
    (ht : t + 1 < ps.length)
    (hprior : 0 < ps.getD t 0) :
    (ps.getD (t + 1) 0 = 0 →
      (colValues (bitcoin_log_returns df price_col).1 "BTC_LogReturns").get? (t + 1)
        = some FVal.negInf ∧
      (df.dates.getD (t + 1) 0, FVal.negInf) ∈ (bitcoin_log_returns df price_col).2.1) ∧
    (ps.getD (t + 1) 0 < 0 →
      (colValues (bitcoin_log_returns df price_col).1 "BTC_LogReturns").get? (t + 1)
        = some FVal.nan) ∧
    (∀ q ∈ (bitcoin_log_returns df price_col).2.1, q.2 ≠ FVal.nan) := by
  have hbr : bitcoin_log_returns df price_col
      = (setCol df "BTC_LogReturns" (derivedVals (colValues df price_col)),
         (df.dates.zip (derivedVals (colValues df price_col))).filter
           (fun q => !q.2.isNA),
         ([] : List String)) := by
    simp only [bitcoin_log_returns, if_pos hmem]
  have hcv : colValues (bitcoin_log_returns df price_col).1 "BTC_LogReturns"
      = derivedVals (colValues df price_col) := by
    rw [hbr]
    exact colValues_setCol df "BTC_LogReturns" _
  have hget : (derivedVals (colValues df price_col)).get? (t + 1)
      = some (flog (fdiv (FVal.val (ps.getD (t + 1) 0)) (FVal.val (ps.getD t 0)))) := by
    rw [hcol, derivedVals_get?_succ (ps.map FVal.val) t (by simpa using ht),
      getD_map_val ps (t + 1) ht, getD_map_val ps t (Nat.lt_of_succ_lt ht)]
  have hlt : t + 1 < df.dates.length := by
    rw [hlen]
    exact ht
  refine ⟨?_, ?_, ?_⟩
  · intro hz
    have hval : (derivedVals (colValues df price_col)).get? (t + 1)
        = some FVal.negInf := by
      rw [hget, hz, flog_fdiv_zero hprior]
    refine ⟨by rw [hcv]; exact hval, ?_⟩
    rw [hbr]
    show (df.dates.getD (t + 1) 0, FVal.negInf)
        ∈ (df.dates.zip (derivedVals (colValues df price_col))).filter
            (fun q => !q.2.isNA)
    have hd : df.dates.get? (t + 1) = some (df.dates.getD (t + 1) 0) := by
      rw [List.get?_eq_get hlt]
      exact congrArg some (List.getD_eq_getElem df.dates 0 hlt).symm
    have hzip : (df.dates.zip (derivedVals (colValues df price_col))).get? (t + 1)
        = some (df.dates.getD (t + 1) 0, FVal.negInf) := by
      show (List.zipWith Prod.mk df.dates
          (derivedVals (colValues df price_col))).get? (t + 1) = _
      rw [List.get?_zipWith', hd, hval]
      rfl
    exact List.mem_filter.mpr ⟨List.get?_mem hzip, by simp [FVal.isNA]⟩
  · intro hn
    rw [hcv, hget, flog_fdiv_neg hn hprior]
  · intro q hq
    rw [hbr] at hq
    have h₂ := (List.mem_filter.mp hq).2
    intro hqn
    rw [hqn] at h₂
    simp [FVal.isNA] at h₂

/-- Witness for the amended C10 on a four-row column with a zero price at
interior position 2 and positive prior. -/
theorem C10_witness :
    ("P" ∈ dfC10w.colNames ∧
     colValues dfC10w "P" = ([1, 1, 0, 1] : List ℝ).map FVal.val ∧
     dfC10w.dates.length = ([1, 1, 0, 1] : List ℝ).length ∧
     1 + 1 < ([1, 1, 0, 1] : List ℝ).length ∧
     0 < ([1, 1, 0, 1] : List ℝ).getD 1 0) ∧
    ((([1, 1, 0, 1] : List ℝ).getD (1 + 1) 0 = 0 →
       (colValues (bitcoin_log_returns dfC10w "P").1 "BTC_LogReturns").get? (1 + 1)
         = some FVal.negInf ∧
       (dfC10w.dates.getD (1 + 1) 0, FVal.negInf)
         ∈ (bitcoin_log_returns dfC10w "P").2.1) ∧
     (([1, 1, 0, 1] : List ℝ).getD (1 + 1) 0 < 0 →
       (colValues (bitcoin_log_returns dfC10w "P").1 "BTC_LogReturns").get? (1 + 1)
         = some FVal.nan) ∧
     (∀ q ∈ (bitcoin_log_returns dfC10w "P").2.1, q.2 ≠ FVal.nan)) :=
  ⟨⟨by decide, rfl, rfl, by decide, by show (0 : ℝ) < 1; norm_num⟩,
   C10_nonpositive_price dfC10w "P" [1, 1, 0, 1] 1 (by decide) rfl rfl (by decide)
     (by show (0 : ℝ) < 1; norm_num)⟩
